import Mathlib

/-!
# mishell: the command parser of `shell-skeleton.c`

A shallow embedding of `parse_command` (and of the part of `process_command`
that decides what happens to a parsed stage) from `src/shell-skeleton.c`.

Modelling conventions.

* A C pointer into the line buffer is the list of bytes from that address on
  (`Mem`).  A C string is the prefix of such a list up to the first NUL byte;
  bytes past the end of the list read as NUL.
* `strtok` keeps one global saved pointer.  It is threaded explicitly: every
  function that calls `strtok` takes the saved pointer it starts from where it
  needs one and returns the saved pointer it leaves behind.
* `malloc` returns uninitialised memory.  The content of the block handed to
  the nested `parse_command` call of the pipe branch is the parameter
  `fresh`, indexed by the nesting depth.
* Strings are unbounded lists: the capacity of `temp_buf[1024]` is not
  modelled (tokens are taken to be shorter than 1024 bytes).
* Recursion is by fuel; `parse_total` shows that the fuel chosen by
  `parse_line` always suffices.
-/

namespace Mishell

/-! ## The parser -/

/-- Text: a C string without its terminator. -/
abbrev Str := List Char

/-- Memory from some address on. -/
abbrev Mem := List Char

/-- The NUL byte. -/
def NUL : Char := Char.ofNat 0

/-- Membership in `splitters = " \t"` for a non-NUL byte. -/
def isSplitter (c : Char) : Bool := c == ' ' || c == '\t'

/-- The C string that starts at a pointer. -/
def cstr (p : Mem) : Str := p.takeWhile (fun c => c != NUL)

/-- The array `char *redirects[3]`: slot 0 read, slot 1 write, slot 2 append;
`none` is a NULL pointer. -/
structure redirects_t where
  read : Option Str
  write : Option Str
  append : Option Str
deriving DecidableEq, Repr

/-- Assignment `redirects[i] = p` for `i` in 0, 1, 2. -/
def redirects_t.set (r : redirects_t) (i : Nat) (p : Option Str) : redirects_t :=
  match i with
  | 0 => { r with read := p }
  | 1 => { r with write := p }
  | _ => { r with append := p }

/-- Mirror of `struct command_t`; `none` is a NULL pointer. -/
structure command_t where
  name : Str
  background : Bool
  auto_complete : Bool
  arg_count : Nat
  args : List (Option Str)
  redirects : redirects_t
  next : Option command_t
deriving Repr

/-- The state `memset(command, 0, sizeof(struct command_t))` leaves in `main`. -/
def zeroed : command_t :=
  { name := [], background := false, auto_complete := false, arg_count := 0,
    args := [], redirects := ⟨none, none, none⟩, next := none }

/-- Outcome of one `strtok(., " \t")` call. -/
structure strtok_result where
  /-- The returned token, `none` for a NULL return. -/
  pch : Option Str
  /-- The bytes that follow the byte at `pch[strlen(pch)]`. -/
  tail : Mem
  /-- The saved pointer the next `strtok(NULL, .)` call starts from. -/
  save : Mem
deriving DecidableEq, Repr

/-- One call of `strtok` scanning from `s` (the argument, or the saved pointer
when the argument is NULL) with the delimiters `" \t"`: skip delimiters;
return NULL at the terminator; otherwise the token runs up to the next
delimiter or terminator, a delimiter is overwritten with NUL and the saved
pointer is set behind it, and at the terminator the saved pointer stays on
it. -/
def strtok (s : Mem) : strtok_result :=
  let s1 := s.dropWhile isSplitter
  match s1 with
  | [] => ⟨none, [], []⟩
  | c :: _ =>
    if c == NUL then ⟨none, [], s1⟩
    else
      let tok := s1.takeWhile (fun c => !isSplitter c && c != NUL)
      match s1.dropWhile (fun c => !isSplitter c && c != NUL) with
      | [] => ⟨some tok, [], []⟩
      | d :: e => if d == NUL then ⟨some tok, e, d :: e⟩ else ⟨some tok, e, e⟩

/-- The loop `while (len > 0 && strchr(splitters, p[0]) != NULL) { p++; len--; }`. -/
def trim_left (p : Mem) : Mem := p.dropWhile isSplitter

/-- The loop `while (len > 0 && strchr(splitters, p[len - 1]) != NULL) p[--len] = 0;`
seen on the string that starts at `p`. -/
def trim_right (s : Str) : Str := s.rdropWhile isSplitter

/-- The part of the loop body of `parse_command` after the pipe test, for a
trimmed, non-empty token `arg`: the background token, the three redirect
forms, quote unwrapping and the append to `args`. Returns the command and the
new `arg_index`. -/
def parse_arg (command : command_t) (arg_index : Nat) (arg : Str) : command_t × Nat :=
  if arg = ['&'] then (command, arg_index)
  else
    let len := arg.length
    let redirect_index : Int := if arg.head? = some '<' then 0 else -1
    let (redirect_index, arg, len) :=
      if arg.head? = some '>' then
        if len > 1 ∧ arg[1]? = some '>' then ((2 : Int), arg.drop 1, len - 1)
        else ((1 : Int), arg, len)
      else (redirect_index, arg, len)
    if redirect_index ≠ -1 then
      ({ command with
          redirects := command.redirects.set redirect_index.toNat (some (arg.drop 1)) },
        arg_index)
    else
      let arg :=
        if len > 2 ∧ ((arg.head? = some '"' ∧ arg.getLast? = some '"') ∨
            (arg.head? = some '\'' ∧ arg.getLast? = some '\'')) then
          (arg.dropLast).drop 1
        else arg
      ({ command with args := command.args ++ [some arg] }, arg_index + 1)

mutual
/-- The function `parse_command(buf, command)`. `fresh d` is the content of the
block `malloc` returns at nesting depth `d`. The result is the command as
left by the call and the saved pointer of `strtok` at return. -/
def parse_command (fresh : Nat → command_t) :
    Nat → Nat → Mem → command_t → Option (command_t × Mem)
  | 0, _, _, _ => none
  | fuel + 1, depth, buf, command =>
    -- trim left whitespace
    let buf := trim_left buf
    -- trim right whitespace: the trimmed bytes become NUL
    let s := cstr buf
    let line := trim_right s
    let buf := line ++ List.replicate (s.length - line.length) NUL ++ buf.drop s.length
    -- auto-complete
    let command :=
      if line.getLast? = some '?' then { command with auto_complete := true } else command
    -- background
    let command :=
      if line.getLast? = some '&' then { command with background := true } else command
    let r := strtok buf
    let command := { command with name := r.pch.getD [], args := [] }
    match parse_loop fresh fuel depth r.save command 0 with
    | none => none
    | some (command, arg_index, save) =>
      -- arg_count += 2, shift by one, args[0] = name, args[last] = NULL
      some ({ command with
              arg_count := arg_index + 2
              args := some command.name :: command.args ++ [none] }, save)
/-- The loop `while (1)` of `parse_command`, entered with the saved pointer
`save`, the command built so far and `arg_index`. -/
def parse_loop (fresh : Nat → command_t) :
    Nat → Nat → Mem → command_t → Nat → Option (command_t × Nat × Mem)
  | 0, _, _, _, _ => none
  | fuel + 1, depth, save, command, arg_index =>
    let r := strtok save
    match r.pch with
    | none => some (command, arg_index, r.save)
    | some pch =>
      if pch.length = 0 then parse_loop fresh fuel depth r.save command arg_index
      else
        let arg := trim_right (trim_left pch)
        if arg.length = 0 then parse_loop fresh fuel depth r.save command arg_index
        else if arg = ['|'] then
          -- pch[l] = ' '; index = 1; skip whitespace from pch + index
          let restored := pch ++ ' ' :: r.tail   -- l = strlen(pch)
          let nested := (restored.drop 1).dropWhile isSplitter
          match parse_command fresh fuel (depth + 1) nested (fresh depth) with
          | none => none
          | some (c, save1) =>
            parse_loop fresh fuel depth save1 { command with next := some c } arg_index
        else
          let (command1, arg_index1) := parse_arg command arg_index arg
          parse_loop fresh fuel depth r.save command1 arg_index1
end

/-- A whole line parsed as `prompt` does for `main`: `parse_command(buf, command)`
with the fuel the length of the buffer calls for. -/
def parse_line (fresh : Nat → command_t) (buf : Mem) (command : command_t) :
    Option command_t :=
  (parse_command fresh (2 * buf.length + 3) 0 buf command).map Prod.fst

/-! ## Running a parsed stage -/

/-- Mirror of `enum return_codes`. -/
inductive return_codes where
  | SUCCESS
  | EXIT
  | UNKNOWN
deriving DecidableEq, Repr

/-- What the operating system and the C library answer to the calls
`process_command` makes, in the process that is followed. -/
structure os_t where
  /-- The value of `getenv("PATH")`; `none` is NULL. -/
  path : Option Str
  /-- Whether `access(p, X_OK)` returns 0. -/
  access_x : Str → Bool
  /-- The value `fork()` returns: 0 in the child, the child's pid in the
  parent, -1 on failure. -/
  fork_pid : Int
  /-- Whether `open` succeeds for the file of redirect slot `i`. -/
  open_ok : Nat → Str → Bool
  /-- Whether `execv` replaces the process image. -/
  execv_ok : Bool
  /-- Whether `dup2` of the descriptor of slot `i` succeeds. -/
  dup2_ok : Nat → Bool
  /-- Whether `close` of the descriptor of slot `i` succeeds. -/
  close_ok : Nat → Bool
  /-- The value the `i`-th call of `rand()` returns, counted from 0. -/
  rand : Nat → Nat

/-- The calls `process_command` makes that act on the world, in order. -/
inductive action where
  | chdir (dir : Option Str)
  | writefile (dir : Option Str)
  | roll (arg : Option Str)
  | cdh
  | cloc (arg : Option Str)
  | sandstorm
  | fortune
  | getenv_PATH
  | access (p : Str)
  | print_not_found (name : Str)
  | fork
  | open_file (slot : Nat) (p : Str)
  | execv (p : Option Str) (args : List (Option Str))
  | wait
  | dup2 (slot : Nat)
  | close (slot : Nat)
deriving DecidableEq, Repr

/-- How a call ends in the process that is followed: it returns a code to its
caller, the process terminates through `exit(status)`, `execv` replaces the
process image, or the process is killed by a fault (a NULL pointer is
dereferenced, an integer is divided by zero). -/
inductive ending where
  | returned (code : return_codes)
  | exited (status : Nat)
  | replaced
  | crashed
deriving DecidableEq, Repr

/-- The first token `strtok(pathvar, " ")` returns: only the space separates. -/
def first_path_token (pathvar : Str) : Option Str :=
  match pathvar.dropWhile (fun c => c == ' ') with
  | [] => none
  | c :: cs => some ((c :: cs).takeWhile (fun c => c != ' '))

/-- The function `find_executable(command)`: the first space-separated token
of `PATH` is tested with `access(path, X_OK)` in the first round of the loop,
which returns in either case; on success `args[0]` is set to that token. -/
def find_executable (os : os_t) (command : command_t) :
    List action × Option (return_codes × command_t) :=
  match os.path with
  | none => ([action.getenv_PATH], none)
  | some pathvar =>
    match first_path_token pathvar with
    | none => ([action.getenv_PATH], none)
    | some path =>
      if path.length = 0 then ([action.getenv_PATH], some (return_codes.UNKNOWN, command))
      else if os.access_x path then
        ([action.getenv_PATH, action.access path],
          some (return_codes.SUCCESS, { command with args := command.args.set 0 (some path) }))
      else ([action.getenv_PATH, action.access path], some (return_codes.UNKNOWN, command))

/-- The three `open` calls of `process_command`, in slot order: the calls made
and whether all of them succeeded. -/
def open_redirects (os : os_t) (r : redirects_t) : List action × Bool :=
  let step (acc : List action × Bool) (slot : Nat) (p : Option Str) : List action × Bool :=
    if acc.2 then
      match p with
      | none => acc
      | some f => (acc.1 ++ [action.open_file slot f], os.open_ok slot f)
    else acc
  step (step (step ([], true) 0 r.read) 1 r.write) 2 r.append

/-- The three `dup2`/`close` blocks at the end of `process_command`; each is
guarded by `redirects[0] != NULL`. The calls made and whether all succeeded. -/
def dup_redirects (os : os_t) (r : redirects_t) : List action × Bool :=
  let step (acc : List action × Bool) (slot : Nat) : List action × Bool :=
    if acc.2 then
      if r.read.isSome then
        if os.dup2_ok slot then
          (acc.1 ++ [action.dup2 slot, action.close slot], os.close_ok slot)
        else (acc.1 ++ [action.dup2 slot], false)
      else acc
    else acc
  step (step (step ([], true) 0) 1) 2

/-- The C function `isdigit` on a byte. -/
def isdigit (c : Char) : Bool := decide ('0' ≤ c) && decide (c ≤ '9')

/-- The C function `isspace` on a byte. -/
def isspace (c : Char) : Bool :=
  c == ' ' || c == '\t' || c == '\n' || c == Char.ofNat 11 || c == Char.ofNat 12 || c == '\r'

/-- The value of the leading run of decimal digits of `s`, after `acc`. -/
def atoi_digits : Str → Nat → Nat
  | [], acc => acc
  | c :: cs, acc => if isdigit c then atoi_digits cs (10 * acc + (c.toNat - 48)) else acc

/-- The C function `atoi`: white space, an optional sign, then the leading run
of decimal digits (no overflow is modelled). -/
def atoi (s : Str) : Int :=
  match s.dropWhile isspace with
  | '-' :: cs => - (atoi_digits cs 0 : Int)
  | '+' :: cs => (atoi_digits cs 0 : Int)
  | cs => (atoi_digits cs 0 : Int)

/-- The two accepted forms of the argument of `roll`, `dK` and `NdK`: the
values `(number_of_rolls, lower, upper)` they set, or `none` for the branch
that prints `Invalid input`. -/
def roll_args (input : Str) : Option (Int × Int × Int) :=
  if input.length = 2 ∧ input[0]? = some 'd' ∧ isdigit (input.getD 1 NUL) then
    some (1, 1, atoi (input.drop 1))
  else if input.length = 3 ∧ input[1]? = some 'd' ∧ isdigit (input.getD 0 NUL) ∧
      isdigit (input.getD 2 NUL) then
    some (atoi input, 1, atoi (input.drop 2))
  else none

/-- The modulus `upper - lower + 1` of the drawing loop of `roll`. -/
def roll_modulus (lower upper : Int) : Int := upper - lower + 1

/-- The loop `for (i = 0; i < number_of_rolls; i++)` of `roll` with `k` rounds
left, the next call of `rand()` being call number `i`: the faces drawn, or
`none` when `rand() % (upper - lower + 1)` divides by zero. -/
def roll_faces (rand : Nat → Nat) (lower upper : Int) : Nat → Nat → Option (List Int)
  | 0, _ => some []
  | k + 1, i =>
    if roll_modulus lower upper = 0 then none
    else
      match roll_faces rand lower upper k (i + 1) with
      | none => none
      | some faces =>
        some (((rand i : Int).tmod (roll_modulus lower upper) + lower) :: faces)

/-- How a call of `roll` ends. -/
inductive roll_outcome where
  /-- The argument has neither form: `Invalid input`, return value EXIT. -/
  | invalid
  /-- The faces drawn, in order; return value SUCCESS. -/
  | rolled (faces : List Int)
  /-- The process is killed: `rand() % 0`. -/
  | division_by_zero
deriving DecidableEq, Repr

/-- The function `roll(input)` for a non-NULL `input`. -/
def roll (rand : Nat → Nat) (input : Str) : roll_outcome :=
  match roll_args input with
  | none => roll_outcome.invalid
  | some (number_of_rolls, lower, upper) =>
    match roll_faces rand lower upper number_of_rolls.toNat 0 with
    | none => roll_outcome.division_by_zero
    | some faces => roll_outcome.rolled faces

/-- The function `process_command(command)` in the process that is followed:
the calls it makes and how it ends. The built-in commands `cd`, `cdh`, `cloc`,
`sandstorm` and `fortune` are recorded as the call of their function, whose
body is not modelled here and which is taken to return; `roll` is followed
through `roll`; console output is not recorded. -/
def process_command (os : os_t) (command : command_t) : List action × ending :=
  if command.name = [] then ([], ending.returned return_codes.SUCCESS)
  else if command.name = "exit".toList then ([], ending.returned return_codes.EXIT)
  else if command.name = "cd".toList ∧ command.arg_count > 0 then
    ([action.chdir ((command.args.getD 1 none)), action.writefile (command.args.getD 1 none)],
      ending.returned return_codes.SUCCESS)
  else if command.name = "roll".toList then
    match command.args.getD 1 none with
    | none => ([action.roll none], ending.crashed)
    | some input =>
      match roll os.rand input with
      | roll_outcome.division_by_zero => ([action.roll (some input)], ending.crashed)
      | _ => ([action.roll (some input)], ending.returned return_codes.SUCCESS)
  else if command.name = "cdh".toList then
    ([action.cdh], ending.returned return_codes.SUCCESS)
  else if command.name = "cloc".toList then
    ([action.cloc (command.args.getD 1 none)], ending.returned return_codes.SUCCESS)
  else if command.name = "sandstorm".toList then
    ([action.sandstorm], ending.returned return_codes.SUCCESS)
  else if command.name = "fortune".toList then
    ([action.fortune], ending.returned return_codes.SUCCESS)
  else if command.name = "psvis".toList then
    ([], ending.returned return_codes.SUCCESS)
  else
    match find_executable os command with
    | (as, none) => (as, ending.crashed)
    | (as, some (return_codes.UNKNOWN, _)) =>
      (as ++ [action.print_not_found command.name], ending.returned return_codes.UNKNOWN)
    | (as, some (_, command)) =>
      let as := as ++ [action.fork]
      let opened := open_redirects os command.redirects
      let as := as ++ opened.1
      if ¬ opened.2 then (as, ending.exited 1)
      else if os.fork_pid = 0 then
        let as := as ++ [action.execv (command.args.getD 0 none) command.args]
        if os.execv_ok then (as, ending.replaced) else (as, ending.exited 0)
      else
        let as := as ++ [action.wait]
        let as := if command.background then as else as ++ [action.wait]
        let dups := dup_redirects os command.redirects
        if dups.2 then (as ++ dups.1, ending.returned return_codes.SUCCESS)
        else (as ++ dups.1, ending.exited 1)

/-! ## Vocabulary of the statements: words, stages, chains, written-back text -/

/-- The whitespace-separated words of a text, in order: the scan keeps the
word in progress in `cur` and closes it at a space or tab. -/
def tokensAux : Str → Str → List Str
  | [], cur => if cur = [] then [] else [cur]
  | c :: cs, cur =>
    if isSplitter c then
      (if cur = [] then tokensAux cs [] else cur :: tokensAux cs [])
    else tokensAux cs (cur ++ [c])

/-- The whitespace-separated words of a text. -/
def tokens (s : Str) : List Str := tokensAux s []

/-- The pipe token. -/
def bar : Str := ['|']

/-- The line as `parse_command` sees it after its two trimming loops. -/
def line_of (buf : Mem) : Str := trim_right (cstr (trim_left buf))

/-- The buffer after the two trimming loops: the trimmed line, a NUL for every
byte trimmed on the right, then the old terminator and what lies behind it. -/
def trimmed (buf : Mem) : Mem :=
  line_of buf ++
    List.replicate ((cstr (trim_left buf)).length - (line_of buf).length) NUL ++
    (trim_left buf).drop (cstr (trim_left buf)).length

/-- The last character of the last word. -/
def last_char (toks : List Str) : Option Char := toks.getLast?.bind List.getLast?

/-- The loop body applied to the tokens of `ts` in order. -/
def run_args (cmd : command_t) (ai : Nat) (ts : List Str) : command_t × Nat :=
  ts.foldl (fun st t => parse_arg st.1 st.2 t) (cmd, ai)

/-- The command `parse_command` starts its loop with: flags from the last
character, the name from the first word, an empty `args`. -/
def stage_init (toks : List Str) (cmd : command_t) : command_t :=
  let cmd := if last_char toks = some '?' then { cmd with auto_complete := true } else cmd
  let cmd := if last_char toks = some '&' then { cmd with background := true } else cmd
  { cmd with name := toks.head?.getD [], args := [] }

/-- The closing assignments of `parse_command`. -/
def stage_finish (c : command_t) (ai : Nat) : command_t :=
  { c with arg_count := ai + 2, args := some c.name :: c.args ++ [none] }

/-- The head stage read off the words of a line, `next` left as it was. -/
def stage_of (toks : List Str) (cmd : command_t) : command_t :=
  let st := run_args (stage_init toks cmd) 0 (toks.tail.takeWhile (fun t => t != bar))
  stage_finish st.1 st.2

/-- The whole chain read off the words of a line (for a line whose last word
is not the pipe token): the head stage, and behind the first pipe token the
chain of the remaining words built in the block `fresh d`. -/
def interp (fresh : Nat → command_t) (d : Nat) (toks : List Str) (cmd : command_t) :
    command_t :=
  match _h : toks.tail.dropWhile (fun t => t != bar) with
  | [] => stage_of toks cmd
  | _ :: post => { stage_of toks cmd with next := some (interp fresh (d + 1) post (fresh d)) }
termination_by toks.length
decreasing_by
  have h1 := (List.dropWhile_sublist (l := toks.tail) (fun t => t != bar)).length_le
  rw [_h] at h1
  simp only [List.length_cons, List.length_tail] at h1
  omega

/-- The `next` link the loop leaves: the old one when no pipe token follows,
else the chain of the words behind the first pipe token. -/
def next_of (fresh : Nat → command_t) (d : Nat) (ts : List Str) (nx0 : Option command_t) :
    Option command_t :=
  match ts.dropWhile (fun t => t != bar) with
  | [] => nx0
  | _ :: post => some (interp fresh (d + 1) post (fresh d))

/-- A token wrapped in matching double or single quotes, longer than two
characters. -/
def quote_wrapped (t : Str) : Bool :=
  decide (t.length > 2) &&
    ((t.head? == some '"' && t.getLast? == some '"') ||
      (t.head? == some '\'' && t.getLast? == some '\''))

/-- A token with its wrapping quotes removed, if it has them. -/
def unquote (t : Str) : Str := if quote_wrapped t then (t.dropLast).drop 1 else t

/-- A token that begins with a redirect operator. -/
def is_redirect (t : Str) : Bool := t.head? == some '<' || t.head? == some '>'

/-- A positional token: not the background token and not a redirect. -/
def positional (t : Str) : Bool := t != ['&'] && !is_redirect t

/-- The redirect slots after one more token. -/
def redirect_step (r : redirects_t) (t : Str) : redirects_t :=
  if t.head? = some '<' then r.set 0 (some (t.drop 1))
  else if t.head? = some '>' then
    (if t[1]? = some '>' then r.set 2 (some (t.drop 2)) else r.set 1 (some (t.drop 1)))
  else r

/-- The tokens of the head stage behind its name: up to the first pipe token. -/
def stage_body (toks : List Str) : List Str := toks.tail.takeWhile (fun t => t != bar)

/-- The stages of a chain, head first. -/
def chain : command_t → List command_t
  | ⟨n, b, a, k, as, r, none⟩ => [⟨n, b, a, k, as, r, none⟩]
  | ⟨n, b, a, k, as, r, some c⟩ => ⟨n, b, a, k, as, r, some c⟩ :: chain c

/-- The words of a line `s1 | s2 | ... | sn`, given the words of its segments. -/
def join_stages : List (List Str) → List Str
  | [] => []
  | [s] => s
  | s :: rest => s ++ bar :: join_stages rest

/-- The block in which stage `i` of a line is built: the caller's command for
the head, the block of the `i`-th `malloc` for a later stage. -/
def stage_block (fresh : Nat → command_t) (cmd : command_t) : Nat → command_t
  | 0 => cmd
  | i + 1 => fresh i

/-- The positional arguments of a stage: `args` without `args[0]` and without
the NULL terminator. -/
def positional_args (c : command_t) : List Str := c.args.tail.filterMap id

/-- The tokens `<r`, `>w`, `>>a` of the redirect slots that are set. -/
def redirect_tokens (r : redirects_t) : List Str :=
  (match r.read with | some x => ['<' :: x] | none => []) ++
  (match r.write with | some x => ['>' :: x] | none => []) ++
  (match r.append with | some x => ['>' :: '>' :: x] | none => [])

/-- One stage written back as tokens: the name, the positional arguments in
order, then the redirect tokens. -/
def stage_tokens (c : command_t) : List Str :=
  c.name :: positional_args c ++ redirect_tokens c.redirects

/-- What two equal pipelines share, stage by stage: name, `args`, `arg_count`,
redirect slots and background flag. -/
def view (c : command_t) : Str × List (Option Str) × Nat × redirects_t × Bool :=
  (c.name, c.args, c.arg_count, c.redirects, c.background)

/-- The tokens a view is written back as. -/
def view_tokens (v : Str × List (Option Str) × Nat × redirects_t × Bool) : List Str :=
  v.1 :: v.2.1.tail.filterMap id ++ redirect_tokens v.2.2.2.1

/-- The names `process_command` answers itself, before it looks for a
program: the empty name, `exit`, `cd` with an argument count above zero,
`roll`, `cdh`, `cloc`, `sandstorm`, `fortune`, `psvis`. -/
def is_builtin (c : command_t) : Bool :=
  c.name == [] || c.name == "exit".toList ||
  (c.name == "cd".toList && decide (c.arg_count > 0)) ||
  c.name == "roll".toList || c.name == "cdh".toList || c.name == "cloc".toList ||
  c.name == "sandstorm".toList || c.name == "fortune".toList || c.name == "psvis".toList

/-- The part of `process_command` behind the built-ins: `find_executable`,
`fork`, the three `open` calls, `execv` in the child, the waits and the
`dup2`/`close` calls in the parent. -/
def run_external (os : os_t) (command : command_t) : List action × ending :=
    match find_executable os command with
    | (as, none) => (as, ending.crashed)
    | (as, some (return_codes.UNKNOWN, _)) =>
      (as ++ [action.print_not_found command.name], ending.returned return_codes.UNKNOWN)
    | (as, some (_, command)) =>
      let as := as ++ [action.fork]
      let opened := open_redirects os command.redirects
      let as := as ++ opened.1
      if ¬ opened.2 then (as, ending.exited 1)
      else if os.fork_pid = 0 then
        let as := as ++ [action.execv (command.args.getD 0 none) command.args]
        if os.execv_ok then (as, ending.replaced) else (as, ending.exited 0)
      else
        let as := as ++ [action.wait]
        let as := if command.background then as else as ++ [action.wait]
        let dups := dup_redirects os command.redirects
        if dups.2 then (as ++ dups.1, ending.returned return_codes.SUCCESS)
        else (as ++ dups.1, ending.exited 1)

/-- The search the specification describes, to compare `find_executable`
with: the directories of `PATH` are its `:`-separated pieces, in order; the
result is the first `d/name` that grants execute permission. -/
def spec_path_search (pathvar : Str) (access_x : Str → Bool) (name : Str) : Option Str :=
  ((pathvar.splitOn ':').map (fun d => d ++ '/' :: name)).find? access_x

/-! ## Words and `strtok` -/

theorem isSplitter_ne_NUL {c : Char} (h : isSplitter c = true) : c ≠ NUL := by
  intro hc
  subst hc
  revert h
  decide

theorem tokensAux_eq (s cur : Str) :
    tokensAux s cur =
      if cur ++ s.takeWhile (fun c => !isSplitter c) = [] then
        tokensAux (s.dropWhile (fun c => !isSplitter c)) []
      else (cur ++ s.takeWhile (fun c => !isSplitter c)) ::
        tokensAux (s.dropWhile (fun c => !isSplitter c)) [] := by
  induction s generalizing cur with
  | nil => simp [tokensAux]
  | cons c cs ih =>
    by_cases hc : isSplitter c = true
    · by_cases hcur : cur = [] <;> simp [tokensAux, hc, hcur]
    · simp only [Bool.not_eq_true] at hc
      rw [tokensAux, if_neg (by simp [hc]), ih]
      simp [hc]

theorem tokens_dropWhile (s : Str) : tokens (s.dropWhile isSplitter) = tokens s := by
  induction s with
  | nil => rfl
  | cons c cs ih =>
    by_cases hc : isSplitter c = true
    · rw [List.dropWhile_cons_of_pos hc, ih]
      simp [tokens, tokensAux, hc]
    · rw [List.dropWhile_cons_of_neg hc]

theorem tokens_cons_splitter {c : Char} (cs : Str) (hc : isSplitter c = true) :
    tokens (c :: cs) = tokens cs := by
  simp [tokens, tokensAux, hc]

theorem tokens_cons_word {c : Char} (cs : Str) (hc : isSplitter c = false) :
    tokens (c :: cs) =
      (c :: cs.takeWhile (fun c => !isSplitter c)) ::
        tokens (cs.dropWhile (fun c => !isSplitter c)) := by
  unfold tokens
  rw [tokensAux_eq]
  simp [hc]

theorem cstr_nil : cstr [] = [] := rfl

theorem cstr_cons_NUL (e : Mem) : cstr (NUL :: e) = [] := by
  simp [cstr]

theorem cstr_cons_of_ne {c : Char} (e : Mem) (h : c ≠ NUL) : cstr (c :: e) = c :: cstr e := by
  simp [cstr, h]

theorem cstr_dropWhile (s : Mem) :
    cstr (s.dropWhile isSplitter) = (cstr s).dropWhile isSplitter := by
  induction s with
  | nil => rfl
  | cons c cs ih =>
    by_cases hc : isSplitter c = true
    · rw [List.dropWhile_cons_of_pos hc, ih, cstr_cons_of_ne _ (isSplitter_ne_NUL hc),
        List.dropWhile_cons_of_pos hc]
    · rw [List.dropWhile_cons_of_neg hc]
      by_cases h0 : c = NUL
      · subst h0; simp [cstr_cons_NUL]
      · rw [cstr_cons_of_ne _ h0, List.dropWhile_cons_of_neg hc]

theorem takeWhile_word_cstr (s : Mem) :
    (cstr s).takeWhile (fun c => !isSplitter c) =
      s.takeWhile (fun c => !isSplitter c && c != NUL) := by
  induction s with
  | nil => rfl
  | cons c cs ih =>
    by_cases h0 : c = NUL
    · subst h0; simp [cstr_cons_NUL]
    · rw [cstr_cons_of_ne _ h0]
      by_cases hc : isSplitter c = true
      · simp [hc]
      · simp only [Bool.not_eq_true] at hc
        simp [hc, h0, ih]

theorem dropWhile_word_cstr (s : Mem) :
    (cstr s).dropWhile (fun c => !isSplitter c) =
      cstr (s.dropWhile (fun c => !isSplitter c && c != NUL)) := by
  induction s with
  | nil => rfl
  | cons c cs ih =>
    by_cases h0 : c = NUL
    · subst h0; simp [cstr_cons_NUL]
    · by_cases hc : isSplitter c = true
      · simp [hc, cstr_cons_of_ne _ h0]
      · simp only [Bool.not_eq_true] at hc
        simp [hc, h0, ih, cstr_cons_of_ne _ h0]

theorem strtok_cons_splitter {c : Char} (cs : Mem) (hc : isSplitter c = true) :
    strtok (c :: cs) = strtok cs := by
  simp [strtok, hc]

theorem strtok_nil : strtok [] = ⟨none, [], []⟩ := rfl

theorem strtok_cons_NUL (e : Mem) : strtok (NUL :: e) = ⟨none, [], NUL :: e⟩ := by
  have h : isSplitter NUL = false := by decide
  simp [strtok, h]

theorem strtok_cons_word {c : Char} (cs : Mem) (hc : isSplitter c = false) (h0 : c ≠ NUL) :
    strtok (c :: cs) =
      match cs.dropWhile (fun c => !isSplitter c && c != NUL) with
      | [] => ⟨some (c :: cs.takeWhile (fun c => !isSplitter c && c != NUL)), [], []⟩
      | d :: e =>
        if d = NUL then
          ⟨some (c :: cs.takeWhile (fun c => !isSplitter c && c != NUL)), e, d :: e⟩
        else ⟨some (c :: cs.takeWhile (fun c => !isSplitter c && c != NUL)), e, e⟩ := by
  have hP : (!isSplitter c && c != NUL) = true := by simp [hc, h0]
  simp only [strtok, List.dropWhile_cons_of_neg (by simp [hc] : ¬ isSplitter c = true)]
  simp only [beq_iff_eq, h0, if_false]
  rw [List.takeWhile_cons_of_pos (p := fun c => !isSplitter c && c != NUL) hP,
    List.dropWhile_cons_of_pos (p := fun c => !isSplitter c && c != NUL) hP]

theorem head_dropWhile_word {cs : Mem} {d : Char} {e : Mem}
    (h : cs.dropWhile (fun c => !isSplitter c && c != NUL) = d :: e) :
    d = NUL ∨ isSplitter d = true := by
  have := List.head_dropWhile_not (fun c => !isSplitter c && c != NUL) cs
    (by rw [h]; simp)
  simp only [h, List.head_cons, Bool.and_eq_false_imp, Bool.not_eq_true'] at this
  by_cases hd : isSplitter d = true
  · exact Or.inr hd
  · simp only [Bool.not_eq_true] at hd
    have := this hd
    left
    simpa using this

/-- The token `strtok` returns is the first word of the string at its start
pointer, and the words of the string at the saved pointer are the other ones. -/
theorem strtok_tokens (s : Mem) :
    (strtok s).pch = (tokens (cstr s)).head? ∧
      tokens (cstr (strtok s).save) = (tokens (cstr s)).tail := by
  induction s with
  | nil => exact ⟨rfl, rfl⟩
  | cons c cs ih =>
    by_cases hc : isSplitter c = true
    · rw [strtok_cons_splitter _ hc, cstr_cons_of_ne _ (isSplitter_ne_NUL hc),
        tokens_cons_splitter _ hc]
      exact ih
    · simp only [Bool.not_eq_true] at hc
      by_cases h0 : c = NUL
      · subst h0
        rw [strtok_cons_NUL, cstr_cons_NUL]
        exact ⟨rfl, rfl⟩
      · rw [cstr_cons_of_ne _ h0, tokens_cons_word _ hc, takeWhile_word_cstr,
          dropWhile_word_cstr, strtok_cons_word _ hc h0]
        cases hrest : cs.dropWhile (fun c => !isSplitter c && c != NUL) with
        | nil => exact ⟨rfl, rfl⟩
        | cons d e =>
          by_cases hd0 : d = NUL
          · subst hd0
            simp [cstr_cons_NUL, tokens, tokensAux]
          · have hds : isSplitter d = true := (head_dropWhile_word hrest).resolve_left hd0
            simp [hd0, cstr_cons_of_ne _ hd0, tokens_cons_splitter _ hds]

/-- When a further word follows the returned token, the byte behind the token
is a delimiter and the saved pointer is the byte after it. -/
theorem strtok_tail (s : Mem) (h : (tokens (cstr s)).tail ≠ []) :
    (strtok s).tail = (strtok s).save := by
  induction s with
  | nil => rfl
  | cons c cs ih =>
    by_cases hc : isSplitter c = true
    · rw [strtok_cons_splitter _ hc]
      rw [cstr_cons_of_ne _ (isSplitter_ne_NUL hc), tokens_cons_splitter _ hc] at h
      exact ih h
    · simp only [Bool.not_eq_true] at hc
      by_cases h0 : c = NUL
      · subst h0
        rw [cstr_cons_NUL] at h
        exact absurd rfl h
      · rw [cstr_cons_of_ne _ h0, tokens_cons_word _ hc, dropWhile_word_cstr] at h
        rw [strtok_cons_word _ hc h0]
        cases hrest : cs.dropWhile (fun c => !isSplitter c && c != NUL) with
        | nil => rfl
        | cons d e =>
          by_cases hd0 : d = NUL
          · subst hd0
            rw [hrest] at h
            simp [cstr_cons_NUL, tokens, tokensAux] at h
          · simp [hd0]

/-- The saved pointer never moves backwards. -/
theorem strtok_save_length (s : Mem) : (strtok s).save.length ≤ s.length := by
  induction s with
  | nil => simp [strtok_nil]
  | cons c cs ih =>
    by_cases hc : isSplitter c = true
    · rw [strtok_cons_splitter _ hc]
      exact Nat.le_succ_of_le ih
    · simp only [Bool.not_eq_true] at hc
      by_cases h0 : c = NUL
      · subst h0
        rw [strtok_cons_NUL]
      · rw [strtok_cons_word _ hc h0]
        have hle := (List.dropWhile_sublist (l := cs)
          (fun c => !isSplitter c && c != NUL)).length_le
        cases hrest : cs.dropWhile (fun c => !isSplitter c && c != NUL) with
        | nil => simp
        | cons d e =>
          rw [hrest] at hle
          simp only [List.length_cons] at hle
          by_cases hd0 : d = NUL
          · simp [hd0]; omega
          · simp [hd0]; omega

/-- A returned token has been consumed: what follows it is strictly shorter. -/
theorem strtok_tail_length (s : Mem) (h : (strtok s).pch ≠ none) :
    (strtok s).tail.length < s.length ∧ (strtok s).save.length < s.length := by
  induction s with
  | nil => simp [strtok_nil] at h
  | cons c cs ih =>
    by_cases hc : isSplitter c = true
    · rw [strtok_cons_splitter _ hc] at h ⊢
      have := ih h
      simp only [List.length_cons]
      omega
    · simp only [Bool.not_eq_true] at hc
      by_cases h0 : c = NUL
      · subst h0
        rw [strtok_cons_NUL] at h
        exact absurd rfl h
      · rw [strtok_cons_word _ hc h0]
        have hle := (List.dropWhile_sublist (l := cs)
          (fun c => !isSplitter c && c != NUL)).length_le
        cases hrest : cs.dropWhile (fun c => !isSplitter c && c != NUL) with
        | nil => simp
        | cons d e =>
          rw [hrest] at hle
          simp only [List.length_cons] at hle
          by_cases hd0 : d = NUL
          · simp [hd0]; omega
          · simp [hd0]; omega

/-- At a NULL return the saved pointer rests on a terminator. -/
theorem strtok_none_save (s : Mem) (h : (strtok s).pch = none) :
    cstr (strtok s).save = [] := by
  induction s with
  | nil => rfl
  | cons c cs ih =>
    by_cases hc : isSplitter c = true
    · rw [strtok_cons_splitter _ hc] at h ⊢
      exact ih h
    · simp only [Bool.not_eq_true] at hc
      by_cases h0 : c = NUL
      · subst h0
        rw [strtok_cons_NUL]
        exact cstr_cons_NUL _
      · rw [strtok_cons_word _ hc h0] at h
        cases hrest : cs.dropWhile (fun c => !isSplitter c && c != NUL) with
        | nil => rw [hrest] at h; simp at h
        | cons d e =>
          rw [hrest] at h
          by_cases hd0 : d = NUL <;> simp [hd0] at h

/-- Once the string at the saved pointer is empty, `strtok` returns NULL and
leaves the pointer where it is. -/
theorem strtok_of_cstr_nil (s : Mem) (h : cstr s = []) : strtok s = ⟨none, [], s⟩ := by
  cases s with
  | nil => rfl
  | cons c cs =>
    by_cases h0 : c = NUL
    · subst h0; exact strtok_cons_NUL _
    · rw [cstr_cons_of_ne _ h0] at h
      cases h

theorem tokensAux_mem (s cur : Str) (hcur : ∀ c ∈ cur, isSplitter c = false) :
    ∀ t ∈ tokensAux s cur, t ≠ [] ∧ ∀ c ∈ t, isSplitter c = false ∧ (c ∈ cur ∨ c ∈ s) := by
  induction s generalizing cur with
  | nil =>
    intro t ht
    by_cases h : cur = []
    · simp [tokensAux, h] at ht
    · simp only [tokensAux, h, if_false, List.mem_singleton] at ht
      subst ht
      exact ⟨h, fun c hc => ⟨hcur c hc, Or.inl hc⟩⟩
  | cons a as ih =>
    intro t ht
    by_cases ha : isSplitter a = true
    · have hrec : ∀ t ∈ tokensAux as [], t ≠ [] ∧
          ∀ c ∈ t, isSplitter c = false ∧ (c ∈ cur ∨ c ∈ a :: as) := by
        intro t ht
        obtain ⟨h1, h2⟩ := ih [] (by simp) t ht
        refine ⟨h1, fun c hc => ⟨(h2 c hc).1, ?_⟩⟩
        rcases (h2 c hc).2 with h | h
        · simp at h
        · exact Or.inr (List.mem_cons_of_mem _ h)
      by_cases h : cur = []
      · simp only [tokensAux, ha, h, if_true] at ht
        exact hrec t ht
      · simp only [tokensAux, ha, h, if_true, if_false, List.mem_cons] at ht
        rcases ht with ht | ht
        · subst ht
          exact ⟨h, fun c hc => ⟨hcur c hc, Or.inl hc⟩⟩
        · exact hrec t ht
    · simp only [Bool.not_eq_true] at ha
      rw [tokensAux, if_neg (by simp [ha])] at ht
      have hcur1 : ∀ c ∈ cur ++ [a], isSplitter c = false := by
        intro c hc
        rcases List.mem_append.mp hc with h | h
        · exact hcur c h
        · simp only [List.mem_singleton] at h
          subst h
          exact ha
      obtain ⟨h1, h2⟩ := ih (cur ++ [a]) hcur1 t ht
      refine ⟨h1, fun c hc => ⟨(h2 c hc).1, ?_⟩⟩
      rcases (h2 c hc).2 with h | h
      · rcases List.mem_append.mp h with h | h
        · exact Or.inl h
        · simp only [List.mem_singleton] at h
          subst h
          exact Or.inr (List.mem_cons_self _ _)
      · exact Or.inr (List.mem_cons_of_mem _ h)

/-- A word is non-empty, free of spaces and tabs, and made of bytes of the text. -/
theorem tokens_mem {s : Str} {t : Str} (ht : t ∈ tokens s) :
    t ≠ [] ∧ (∀ c ∈ t, isSplitter c = false) ∧ ∀ c ∈ t, c ∈ s := by
  obtain ⟨h1, h2⟩ := tokensAux_mem s [] (by simp) t ht
  refine ⟨h1, fun c hc => (h2 c hc).1, fun c hc => ?_⟩
  rcases (h2 c hc).2 with h | h
  · simp at h
  · exact h

theorem trim_left_word {t : Str} (h1 : t ≠ []) (h2 : ∀ c ∈ t, isSplitter c = false) :
    trim_left t = t := by
  cases t with
  | nil => exact absurd rfl h1
  | cons a as =>
    have : ¬ isSplitter a = true := by simp [h2 a (List.mem_cons_self _ _)]
    exact List.dropWhile_cons_of_neg this

theorem trim_right_word {t : Str} (h2 : ∀ c ∈ t, isSplitter c = false) :
    trim_right t = t := by
  unfold trim_right
  rw [List.rdropWhile_eq_self_iff]
  intro hl
  simp [h2 _ (List.getLast_mem hl)]

/-! ## One iteration of the loop -/

theorem parse_loop_zero (fresh : Nat → command_t) (d : Nat) (save : Mem) (cmd : command_t)
    (ai : Nat) : parse_loop fresh 0 d save cmd ai = none := by
  rw [parse_loop]

theorem parse_command_zero (fresh : Nat → command_t) (d : Nat) (buf : Mem)
    (cmd : command_t) : parse_command fresh 0 d buf cmd = none := by
  rw [parse_command]

/-- The loop stops at a NULL return of `strtok`. -/
theorem parse_loop_nil (fresh : Nat → command_t) (fuel d : Nat) (save : Mem)
    (cmd : command_t) (ai : Nat) (h : tokens (cstr save) = []) :
    parse_loop fresh (fuel + 1) d save cmd ai = some (cmd, ai, (strtok save).save) := by
  have hp : (strtok save).pch = none := by rw [(strtok_tokens save).1, h]; rfl
  rw [parse_loop]
  simp only [hp]

/-- The pipe token: the nested call runs on the text behind it, then the loop
goes on from the saved pointer the nested call left. -/
theorem parse_loop_bar (fresh : Nat → command_t) (fuel d : Nat) (save : Mem)
    (cmd : command_t) (ai : Nat) (ts : List Str) (h : tokens (cstr save) = bar :: ts) :
    parse_loop fresh (fuel + 1) d save cmd ai =
      match parse_command fresh fuel (d + 1) ((strtok save).tail.dropWhile isSplitter)
          (fresh d) with
      | none => none
      | some (c, save1) => parse_loop fresh fuel d save1 { cmd with next := some c } ai := by
  have hp : (strtok save).pch = some bar := by rw [(strtok_tokens save).1, h]; rfl
  rw [parse_loop]
  simp only [hp]
  have h1 : trim_right (trim_left ['|']) = ['|'] := by decide
  have h2 : isSplitter ' ' = true := by decide
  simp [h1, bar, List.dropWhile_cons_of_pos h2]

/-- Any other token goes through `parse_arg`. -/
theorem parse_loop_arg (fresh : Nat → command_t) (fuel d : Nat) (save : Mem)
    (cmd : command_t) (ai : Nat) (t : Str) (ts : List Str)
    (h : tokens (cstr save) = t :: ts) (ht : t ≠ bar) :
    parse_loop fresh (fuel + 1) d save cmd ai =
      parse_loop fresh fuel d (strtok save).save (parse_arg cmd ai t).1
        (parse_arg cmd ai t).2 := by
  have hp : (strtok save).pch = some t := by rw [(strtok_tokens save).1, h]; rfl
  have hmem : t ∈ tokens (cstr save) := by rw [h]; exact List.mem_cons_self _ _
  obtain ⟨hne, hsp, -⟩ := tokens_mem hmem
  have h1 : trim_right (trim_left t) = t := by
    rw [trim_left_word hne hsp, trim_right_word hsp]
  have hlen : t.length ≠ 0 := by
    intro h0; exact hne (List.length_eq_zero.mp h0)
  rw [parse_loop]
  simp only [hp, h1, hlen, if_false]
  have ht1 : ¬ t = ['|'] := ht
  simp only [ht1, if_false]

/-! ## The trimmed buffer -/

theorem cstr_no_NUL (p : Mem) : ∀ c ∈ cstr p, c ≠ NUL := by
  intro c hc
  have := List.mem_takeWhile_imp hc
  simpa using this

theorem cstr_append_of_nil (l m : Mem) (hl : ∀ c ∈ l, c ≠ NUL) (hm : cstr m = []) :
    cstr (l ++ m) = l := by
  induction l with
  | nil => simpa using hm
  | cons a as ih =>
    have ha : a ≠ NUL := hl a (List.mem_cons_self _ _)
    rw [List.cons_append, cstr_cons_of_ne _ ha,
      ih (fun c hc => hl c (List.mem_cons_of_mem _ hc))]

theorem cstr_replicate_NUL (k : Nat) (m : Mem) (hm : cstr m = []) :
    cstr (List.replicate k NUL ++ m) = [] := by
  cases k with
  | zero => simpa using hm
  | succ k => rw [List.replicate_succ, List.cons_append, cstr_cons_NUL]

theorem cstr_drop_cstr (p : Mem) : cstr (p.drop (cstr p).length) = [] := by
  induction p with
  | nil => rfl
  | cons a as ih =>
    by_cases ha : a = NUL
    · subst ha
      rw [cstr_cons_NUL]
      exact cstr_cons_NUL _
    · rw [cstr_cons_of_ne _ ha]
      exact ih

theorem cstr_length_le (p : Mem) : (cstr p).length ≤ p.length :=
  (List.takeWhile_sublist _).length_le

theorem line_of_initial (buf : Mem) : line_of buf <+: cstr (trim_left buf) :=
  List.rdropWhile_prefix _ _

theorem cstr_trimmed (buf : Mem) : cstr (trimmed buf) = line_of buf := by
  unfold trimmed
  rw [List.append_assoc]
  apply cstr_append_of_nil
  · intro c hc
    exact cstr_no_NUL _ c ((line_of_initial buf).subset hc)
  · exact cstr_replicate_NUL _ _ (cstr_drop_cstr _)

theorem trimmed_length (buf : Mem) : (trimmed buf).length ≤ buf.length := by
  have h1 := (line_of_initial buf).length_le
  have h2 := cstr_length_le (trim_left buf)
  have h3 : (trim_left buf).length ≤ buf.length := (List.dropWhile_sublist _).length_le
  simp only [trimmed, List.length_append, List.length_replicate, List.length_drop]
  omega

theorem tokensAux_append_splitter (l cur : Str) {a : Char} (ha : isSplitter a = true) :
    tokensAux (l ++ [a]) cur = tokensAux l cur := by
  induction l generalizing cur with
  | nil => by_cases h : cur = [] <;> simp [tokensAux, ha, h]
  | cons b bs ih =>
    by_cases hb : isSplitter b = true
    · by_cases h : cur = [] <;> simp [tokensAux, hb, h, ih]
    · simp only [Bool.not_eq_true] at hb
      simp [tokensAux, hb, ih]

theorem tokens_rdropWhile (s : Str) : tokens (s.rdropWhile isSplitter) = tokens s := by
  induction s using List.reverseRecOn with
  | nil => rfl
  | append_singleton l a ih =>
    by_cases ha : isSplitter a = true
    · rw [List.rdropWhile_concat_pos _ _ _ ha, ih]
      exact (tokensAux_append_splitter l [] ha).symm
    · rw [List.rdropWhile_concat_neg _ _ _ ha]

/-- Trimming does not change the words of the line. -/
theorem tokens_line_of (buf : Mem) : tokens (line_of buf) = tokens (cstr buf) := by
  unfold line_of trim_right trim_left
  rw [tokens_rdropWhile, cstr_dropWhile, tokens_dropWhile]

theorem tokens_cstr_trimmed (buf : Mem) : tokens (cstr (trimmed buf)) = tokens (cstr buf) := by
  rw [cstr_trimmed, tokens_line_of]

theorem tokensAux_flatten (s cur : Str) :
    (tokensAux s cur).flatten = cur ++ s.filter (fun c => !isSplitter c) := by
  induction s generalizing cur with
  | nil => by_cases h : cur = [] <;> simp [tokensAux, h]
  | cons a as ih =>
    by_cases ha : isSplitter a = true
    · by_cases h : cur = [] <;> simp [tokensAux, ha, h, ih]
    · simp only [Bool.not_eq_true] at ha
      simp [tokensAux, ha, ih]

theorem getLast?_flatten_of_ne_nil (L : List (List Char)) (h : ∀ l ∈ L, l ≠ []) :
    L.flatten.getLast? = L.getLast?.bind List.getLast? := by
  induction L using List.reverseRecOn with
  | nil => rfl
  | append_singleton M l _ =>
    have hl : l ≠ [] := h l (by simp)
    have hsome : ∃ x, l.getLast? = some x := by
      cases hx : l.getLast? with
      | none => exact absurd (List.getLast?_eq_none_iff.mp hx) hl
      | some x => exact ⟨x, rfl⟩
    obtain ⟨x, hx⟩ := hsome
    simp [List.flatten_append, hx]

theorem getLast?_rdropWhile (s : Str) :
    (s.rdropWhile isSplitter).getLast? = (s.filter (fun c => !isSplitter c)).getLast? := by
  induction s using List.reverseRecOn with
  | nil => rfl
  | append_singleton l a ih =>
    by_cases ha : isSplitter a = true
    · rw [List.rdropWhile_concat_pos _ _ _ ha, ih]
      simp [ha]
    · rw [List.rdropWhile_concat_neg _ _ _ ha]
      simp only [Bool.not_eq_true] at ha
      simp [ha]

theorem filter_dropWhile_splitter (s : Str) :
    (s.dropWhile isSplitter).filter (fun c => !isSplitter c) =
      s.filter (fun c => !isSplitter c) := by
  induction s with
  | nil => rfl
  | cons a as ih =>
    by_cases ha : isSplitter a = true
    · rw [List.dropWhile_cons_of_pos ha, ih]
      simp [ha]
    · rw [List.dropWhile_cons_of_neg ha]

/-- The last character of the trimmed line is the last character of its last
word. -/
theorem line_of_getLast (buf : Mem) :
    (line_of buf).getLast? = last_char (tokens (cstr buf)) := by
  unfold line_of trim_right trim_left last_char
  rw [getLast?_rdropWhile, cstr_dropWhile, filter_dropWhile_splitter,
    ← getLast?_flatten_of_ne_nil _ (fun l hl => (tokens_mem hl).1)]
  unfold tokens
  rw [tokensAux_flatten]
  rfl

/-- The body of `parse_command` in terms of the words of the line. -/
theorem parse_command_succ (fresh : Nat → command_t) (fuel d : Nat) (buf : Mem)
    (cmd : command_t) :
    parse_command fresh (fuel + 1) d buf cmd =
      match parse_loop fresh fuel d (strtok (trimmed buf)).save
          (stage_init (tokens (cstr buf)) cmd) 0 with
      | none => none
      | some (c, ai, save) => some (stage_finish c ai, save) := by
  rw [parse_command]
  have h1 : (strtok (trimmed buf)).pch = (tokens (cstr buf)).head? := by
    rw [(strtok_tokens _).1, tokens_cstr_trimmed]
  have h2 := line_of_getLast buf
  simp only [stage_init, ← h2, ← h1]
  rfl

/-! ## The parser in terms of the words of the line -/

theorem parse_arg_next (cmd : command_t) (ai : Nat) (t : Str) :
    (parse_arg cmd ai t).1.next = cmd.next := by
  unfold parse_arg
  split
  · rfl
  · dsimp only
    split <;> split <;> rfl

theorem run_args_nil (cmd : command_t) (ai : Nat) : run_args cmd ai [] = (cmd, ai) := rfl

theorem run_args_cons (cmd : command_t) (ai : Nat) (t : Str) (ts : List Str) :
    run_args cmd ai (t :: ts) = run_args (parse_arg cmd ai t).1 (parse_arg cmd ai t).2 ts := rfl

theorem run_args_next (cmd : command_t) (ai : Nat) (ts : List Str) :
    (run_args cmd ai ts).1.next = cmd.next := by
  induction ts generalizing cmd ai with
  | nil => rfl
  | cons t ts ih => rw [run_args_cons, ih, parse_arg_next]

theorem stage_init_next (toks : List Str) (cmd : command_t) :
    (stage_init toks cmd).next = cmd.next := by
  unfold stage_init
  dsimp only
  split <;> split <;> rfl

theorem stage_of_next (toks : List Str) (cmd : command_t) :
    (stage_of toks cmd).next = cmd.next := by
  unfold stage_of stage_finish
  dsimp only
  rw [run_args_next, stage_init_next]

theorem interp_eq (fresh : Nat → command_t) (d : Nat) (toks : List Str) (cmd : command_t) :
    interp fresh d toks cmd =
      { stage_of toks cmd with next := next_of fresh d toks.tail cmd.next } := by
  rw [interp, next_of]
  split <;> rename_i h
  · simp only [h]
    have := stage_of_next toks cmd
    cases hs : stage_of toks cmd
    rw [hs] at this
    simp only at this
    simp [this]
  · simp only [h]

theorem getLast?_tail_ne {ts : List Str} {t : Str} (h : (t :: ts).getLast? ≠ some bar) :
    ts.getLast? ≠ some bar := by
  cases ts with
  | nil => simp
  | cons u us => simpa using h

theorem getLast?_tail_tail_ne {ts : List Str} {t : Str} (h : (t :: ts).getLast? ≠ some bar) :
    ts.tail.getLast? ≠ some bar := by
  cases ts with
  | nil => simp
  | cons u us => exact getLast?_tail_ne (getLast?_tail_ne h)

theorem next_of_cons_ne (fresh : Nat → command_t) (d : Nat) (t : Str) (ts : List Str)
    (nx0 : Option command_t) (ht : t ≠ bar) :
    next_of fresh d (t :: ts) nx0 = next_of fresh d ts nx0 := by
  unfold next_of
  rw [List.dropWhile_cons_of_pos (by simpa using ht)]

theorem next_of_bar (fresh : Nat → command_t) (d : Nat) (ts : List Str)
    (nx0 : Option command_t) :
    next_of fresh d (bar :: ts) nx0 = some (interp fresh (d + 1) ts (fresh d)) := by
  unfold next_of
  rw [List.dropWhile_cons_of_neg (by simp)]

theorem takeWhile_cons_ne (t : Str) (ts : List Str) (ht : t ≠ bar) :
    (t :: ts).takeWhile (fun t => t != bar) = t :: ts.takeWhile (fun t => t != bar) :=
  List.takeWhile_cons_of_pos (by simpa using ht)

theorem takeWhile_bar (ts : List Str) :
    (bar :: ts).takeWhile (fun t => t != bar) = [] :=
  List.takeWhile_cons_of_neg (by simp)

/-- What the loop and the function compute, in terms of the words of the text
they start on. The saved pointer they return rests on a terminator, so the
caller's next `strtok(NULL, .)` returns NULL. -/
theorem parse_sound (fresh : Nat → command_t) (fuel : Nat) :
    (∀ d save cmd ai res, parse_loop fresh fuel d save cmd ai = some res →
      ∃ nx, res.1 =
          { (run_args cmd ai ((tokens (cstr save)).takeWhile (fun t => t != bar))).1 with
            next := nx } ∧
        res.2.1 = (run_args cmd ai ((tokens (cstr save)).takeWhile (fun t => t != bar))).2 ∧
        cstr res.2.2 = [] ∧
        ((tokens (cstr save)).getLast? ≠ some bar →
          nx = next_of fresh d (tokens (cstr save)) cmd.next)) ∧
    (∀ d buf cmd r s, parse_command fresh fuel d buf cmd = some (r, s) →
      (∃ nx, r = { stage_of (tokens (cstr buf)) cmd with next := nx }) ∧
        cstr s = [] ∧
        ((tokens (cstr buf)).tail.getLast? ≠ some bar →
          r = interp fresh d (tokens (cstr buf)) cmd)) := by
  induction fuel with
  | zero =>
    constructor
    · intro d save cmd ai res h
      rw [parse_loop_zero] at h
      cases h
    · intro d buf cmd r s h
      rw [parse_command_zero] at h
      cases h
  | succ fuel ih =>
    obtain ⟨ihl, ihc⟩ := ih
    constructor
    · intro d save cmd ai res h
      cases htoks : tokens (cstr save) with
      | nil =>
        rw [parse_loop_nil fresh fuel d save cmd ai htoks] at h
        cases h
        refine ⟨cmd.next, ?_, ?_, ?_, ?_⟩
        · cases cmd; rfl
        · rfl
        · apply strtok_none_save
          rw [(strtok_tokens save).1, htoks]
          rfl
        · intro _
          rfl
      | cons t ts =>
        have hsave : tokens (cstr (strtok save).save) = ts := by
          rw [(strtok_tokens save).2, htoks]
          rfl
        by_cases ht : t = bar
        · subst ht
          rw [parse_loop_bar fresh fuel d save cmd ai ts htoks] at h
          cases hn : parse_command fresh fuel (d + 1)
              ((strtok save).tail.dropWhile isSplitter) (fresh d) with
          | none => rw [hn] at h; cases h
          | some cs =>
            obtain ⟨c, save1⟩ := cs
            rw [hn] at h
            dsimp only at h
            obtain ⟨-, hs1, hfull⟩ := ihc _ _ _ _ _ hn
            cases fuel with
            | zero => rw [parse_command_zero] at hn; cases hn
            | succ f =>
              have hnil : tokens (cstr save1) = [] := by rw [hs1]; rfl
              rw [parse_loop_nil fresh f d save1 _ ai hnil, strtok_of_cstr_nil _ hs1] at h
              cases h
              refine ⟨some c, ?_, ?_, hs1, ?_⟩
              · simp [takeWhile_bar, run_args_nil]
              · simp [takeWhile_bar, run_args_nil]
              · intro hlast
                rw [next_of_bar]
                have hts : ts ≠ [] := by
                  intro h0
                  subst h0
                  exact hlast rfl
                have htail : (strtok save).tail = (strtok save).save := by
                  apply strtok_tail
                  rw [htoks]
                  exact hts
                have hnt : tokens (cstr ((strtok save).tail.dropWhile isSplitter)) = ts := by
                  rw [htail, cstr_dropWhile, tokens_dropWhile, hsave]
                rw [hnt] at hfull
                rw [hfull (getLast?_tail_tail_ne hlast)]
        · rw [parse_loop_arg fresh fuel d save cmd ai t ts htoks ht] at h
          obtain ⟨nx, h1, h2, h3, h4⟩ := ihl _ _ _ _ _ h
          rw [hsave] at h1 h2 h4
          refine ⟨nx, ?_, ?_, h3, ?_⟩
          · rw [takeWhile_cons_ne t ts ht, run_args_cons]
            exact h1
          · rw [takeWhile_cons_ne t ts ht, run_args_cons]
            exact h2
          · intro hlast
            rw [next_of_cons_ne fresh d t ts _ ht, h4 (getLast?_tail_ne hlast),
              parse_arg_next]
    · intro d buf cmd r s h
      rw [parse_command_succ] at h
      cases hl : parse_loop fresh fuel d (strtok (trimmed buf)).save
          (stage_init (tokens (cstr buf)) cmd) 0 with
      | none => rw [hl] at h; cases h
      | some res =>
        obtain ⟨c, ai, save⟩ := res
        rw [hl] at h
        dsimp only at h
        cases h
        obtain ⟨nx, h1, h2, h3, h4⟩ := ihl _ _ _ _ _ hl
        have hsave : tokens (cstr (strtok (trimmed buf)).save) = (tokens (cstr buf)).tail := by
          rw [(strtok_tokens _).2, tokens_cstr_trimmed]
        rw [hsave] at h1 h2 h4
        dsimp only at h1 h2 h3
        have hr : stage_finish c ai =
            { stage_of (tokens (cstr buf)) cmd with next := nx } := by
          rw [h1, h2]
          rfl
        refine ⟨⟨nx, hr⟩, h3, ?_⟩
        intro hlast
        rw [hr, interp_eq, h4 hlast, stage_init_next]

/-- Enough fuel: the loop returns with `2 * length + 1`, the function with
`2 * length + 2`. -/
theorem parse_total (fresh : Nat → command_t) (fuel : Nat) :
    (∀ d save cmd ai, 2 * save.length + 1 ≤ fuel →
      ∃ res, parse_loop fresh fuel d save cmd ai = some res) ∧
    (∀ d buf cmd, 2 * buf.length + 2 ≤ fuel →
      ∃ res, parse_command fresh fuel d buf cmd = some res) := by
  induction fuel with
  | zero =>
    constructor
    · intro d save cmd ai h; omega
    · intro d buf cmd h; omega
  | succ fuel ih =>
    obtain ⟨ihl, ihc⟩ := ih
    constructor
    · intro d save cmd ai hfuel
      cases htoks : tokens (cstr save) with
      | nil => exact ⟨_, parse_loop_nil fresh fuel d save cmd ai htoks⟩
      | cons t ts =>
        have hp : (strtok save).pch ≠ none := by
          rw [(strtok_tokens save).1, htoks]; simp
        obtain ⟨hl1, hl2⟩ := strtok_tail_length save hp
        by_cases ht : t = bar
        · subst ht
          rw [parse_loop_bar fresh fuel d save cmd ai ts htoks]
          have hlen : ((strtok save).tail.dropWhile isSplitter).length ≤
              (strtok save).tail.length := (List.dropWhile_sublist _).length_le
          obtain ⟨⟨c, save1⟩, hn⟩ := ihc (d + 1) ((strtok save).tail.dropWhile isSplitter)
            (fresh d) (by omega)
          rw [hn]
          dsimp only
          have hs1 := ((parse_sound fresh fuel).2 _ _ _ _ _ hn).2.1
          cases fuel with
          | zero => omega
          | succ f =>
            exact ⟨_, parse_loop_nil fresh f d save1 _ ai (by rw [hs1]; rfl)⟩
        · rw [parse_loop_arg fresh fuel d save cmd ai t ts htoks ht]
          exact ihl _ _ _ _ (by omega)
    · intro d buf cmd hfuel
      rw [parse_command_succ]
      have h1 := strtok_save_length (trimmed buf)
      have h2 := trimmed_length buf
      obtain ⟨⟨c, ai, save⟩, hl⟩ := ihl d (strtok (trimmed buf)).save
        (stage_init (tokens (cstr buf)) cmd) 0 (by omega)
      rw [hl]
      exact ⟨_, rfl⟩

/-- Every line is parsed, whatever it holds and whatever the command
held before; the head stage is read off the words of the line. -/
theorem parse_line_head (fresh : Nat → command_t) (buf : Mem) (cmd : command_t) :
    ∃ nx, parse_line fresh buf cmd =
      some { stage_of (tokens (cstr buf)) cmd with next := nx } := by
  obtain ⟨⟨r, s⟩, h⟩ := (parse_total fresh (2 * buf.length + 3)).2 0 buf cmd (by omega)
  obtain ⟨⟨nx, hr⟩, -, -⟩ := (parse_sound fresh _).2 _ _ _ _ _ h
  refine ⟨nx, ?_⟩
  unfold parse_line
  rw [h, ← hr]
  rfl

/-- For a line whose last word is not a pipe token behind the name, the whole
chain is read off the words of the line. -/
theorem parse_line_interp (fresh : Nat → command_t) (buf : Mem) (cmd : command_t)
    (hlast : (tokens (cstr buf)).tail.getLast? ≠ some bar) :
    parse_line fresh buf cmd = some (interp fresh 0 (tokens (cstr buf)) cmd) := by
  obtain ⟨⟨r, s⟩, h⟩ := (parse_total fresh (2 * buf.length + 3)).2 0 buf cmd (by omega)
  have hr := ((parse_sound fresh _).2 _ _ _ _ _ h).2.2 hlast
  unfold parse_line
  rw [h, ← hr]
  rfl

/-! ## The loop body on one token and on a list of tokens -/

theorem parse_arg_eq (cmd : command_t) (ai : Nat) (t : Str) :
    parse_arg cmd ai t =
      if positional t then ({ cmd with args := cmd.args ++ [some (unquote t)] }, ai + 1)
      else ({ cmd with redirects := redirect_step cmd.redirects t }, ai) := by
  have hlg : ('<' : Char) ≠ '>' := by decide
  unfold parse_arg positional is_redirect redirect_step unquote quote_wrapped
  rcases t with _ | ⟨c, _ | ⟨c2, rest⟩⟩
  · cases cmd
    simp
  · by_cases h1 : c = '&'
    · subst h1
      cases cmd
      simp [redirects_t.set]
    · by_cases h2 : c = '<'
      · subst h2
        simp [hlg]
      · by_cases h3 : c = '>'
        · subst h3
          simp
        · cases cmd
          simp [h1, h2, h3]
  · by_cases h2 : c = '<'
    · subst h2
      simp [hlg]
    · by_cases h3 : c = '>'
      · subst h3
        by_cases h4 : c2 = '>'
        · subst h4
          simp
        · simp [h4]
      · cases cmd
        simp [h2, h3]

theorem redirect_step_positional (r : redirects_t) (t : Str) (h : positional t = true) :
    redirect_step r t = r := by
  unfold positional is_redirect at h
  unfold redirect_step
  simp only [Bool.and_eq_true, Bool.not_eq_true', Bool.or_eq_false_iff, beq_eq_false_iff_ne,
    ne_eq] at h
  simp [h.2.1, h.2.2]

theorem run_args_eq (cmd : command_t) (ai : Nat) (ts : List Str) :
    run_args cmd ai ts =
      ({ cmd with
          args := cmd.args ++ (ts.filter positional).map (fun t => some (unquote t))
          redirects := ts.foldl redirect_step cmd.redirects },
        ai + (ts.filter positional).length) := by
  induction ts generalizing cmd ai with
  | nil => cases cmd; simp [run_args_nil]
  | cons t ts ih =>
    rw [run_args_cons, ih, parse_arg_eq]
    by_cases hp : positional t = true
    · simp [hp, redirect_step_positional _ _ hp]
      omega
    · simp [hp]

/-- The head stage, field by field. -/
theorem stage_of_eq (toks : List Str) (cmd : command_t) :
    stage_of toks cmd =
      { name := toks.head?.getD []
        background := cmd.background || (last_char toks == some '&')
        auto_complete := cmd.auto_complete || (last_char toks == some '?')
        arg_count := ((stage_body toks).filter positional).length + 2
        args := some (toks.head?.getD []) ::
          ((stage_body toks).filter positional).map (fun t => some (unquote t)) ++ [none]
        redirects := (stage_body toks).foldl redirect_step cmd.redirects
        next := cmd.next } := by
  unfold stage_of stage_finish stage_body
  rw [run_args_eq]
  unfold stage_init
  by_cases h1 : last_char toks = some '?' <;> by_cases h2 : last_char toks = some '&' <;>
    simp [h1, h2]

theorem takeWhile_all_ne_bar (ws : List Str) (h : ∀ w ∈ ws, w ≠ bar) :
    ws.takeWhile (fun t => t != bar) = ws := by
  rw [List.takeWhile_eq_self_iff]
  intro w hw
  simpa using h w hw

theorem dropWhile_all_ne_bar (ws : List Str) (h : ∀ w ∈ ws, w ≠ bar) :
    ws.dropWhile (fun t => t != bar) = [] := by
  rw [List.dropWhile_eq_nil_iff]
  intro w hw
  simpa using h w hw

theorem chain_of_none (c : command_t) (h : c.next = none) : chain c = [c] := by
  cases c with
  | mk n b a k as r nx =>
    simp only at h
    subst h
    rw [chain]

theorem chain_of_some (c n : command_t) (h : c.next = some n) : chain c = c :: chain n := by
  cases c with
  | mk nm b a k as r nx =>
    simp only at h
    subst h
    rw [chain]

theorem join_stages_cons_cons (s s2 : List Str) (rest : List (List Str)) :
    join_stages (s :: s2 :: rest) = s ++ bar :: join_stages (s2 :: rest) := rfl

theorem join_stages_head (seg : List Str) (rest : List (List Str)) (hne : seg ≠ []) :
    (join_stages (seg :: rest)).head? = seg.head? := by
  obtain ⟨a, as, rfl⟩ := List.exists_cons_of_ne_nil hne
  cases rest with
  | nil => rfl
  | cons s2 r => rfl

theorem join_stages_body (seg : List Str) (rest : List (List Str)) (hne : seg ≠ [])
    (hbar : bar ∉ seg) : stage_body (join_stages (seg :: rest)) = seg.tail := by
  obtain ⟨a, as, rfl⟩ := List.exists_cons_of_ne_nil hne
  have has : ∀ w ∈ as, w ≠ bar := fun w hw h => hbar (h ▸ List.mem_cons_of_mem _ hw)
  unfold stage_body
  cases rest with
  | nil => exact takeWhile_all_ne_bar as has
  | cons s2 r =>
    rw [join_stages_cons_cons]
    simp only [List.cons_append, List.tail_cons]
    rw [List.takeWhile_append_of_pos (by simpa using has), takeWhile_bar, List.append_nil]

theorem join_stages_rest (seg s2 : List Str) (rest : List (List Str)) (hne : seg ≠ [])
    (hbar : bar ∉ seg) :
    (join_stages (seg :: s2 :: rest)).tail.dropWhile (fun t => t != bar) =
      bar :: join_stages (s2 :: rest) := by
  obtain ⟨a, as, rfl⟩ := List.exists_cons_of_ne_nil hne
  have has : ∀ w ∈ as, w ≠ bar := fun w hw h => hbar (h ▸ List.mem_cons_of_mem _ hw)
  rw [join_stages_cons_cons]
  simp only [List.cons_append, List.tail_cons]
  rw [List.dropWhile_append_of_pos (by simpa using has),
    List.dropWhile_cons_of_neg (by simp)]

theorem stage_body_single (seg : List Str) (hbar : bar ∉ seg) :
    stage_body seg = seg.tail := by
  unfold stage_body
  apply takeWhile_all_ne_bar
  intro w hw h
  exact hbar (h ▸ List.mem_of_mem_tail hw)

/-- The interpretation of `s1 | s2 | ... | sn`: a chain of `n` stages, the
`i`-th one with the name, arguments and redirects of `si` read alone. -/
theorem interp_chain (fresh : Nat → command_t) (hfresh : ∀ d, (fresh d).next = none)
    (segs : List (List Str)) :
    ∀ (d : Nat) (cmd : command_t), segs ≠ [] → (∀ s ∈ segs, s ≠ [] ∧ bar ∉ s) →
      cmd.next = none →
      (chain (interp fresh d (join_stages segs) cmd)).length = segs.length ∧
      ∀ (i : Nat) (hi : i < segs.length), ∃ ci,
        (chain (interp fresh d (join_stages segs) cmd))[i]? = some ci ∧
        ci.name = (stage_of segs[i] (stage_block (fun k => fresh (d + k)) cmd i)).name ∧
        ci.args = (stage_of segs[i] (stage_block (fun k => fresh (d + k)) cmd i)).args ∧
        ci.arg_count =
          (stage_of segs[i] (stage_block (fun k => fresh (d + k)) cmd i)).arg_count ∧
        ci.redirects =
          (stage_of segs[i] (stage_block (fun k => fresh (d + k)) cmd i)).redirects := by
  induction segs with
  | nil => intro d cmd h; exact absurd rfl h
  | cons seg rest ih =>
    intro d cmd _ hseg hcmd
    obtain ⟨hne, hbar⟩ := hseg seg (List.mem_cons_self _ _)
    have hhead : ∀ (nx : Option command_t),
        ({ stage_of (join_stages (seg :: rest)) cmd with next := nx } : command_t).name
            = (stage_of seg cmd).name ∧
          ({ stage_of (join_stages (seg :: rest)) cmd with next := nx } : command_t).args
            = (stage_of seg cmd).args ∧
          ({ stage_of (join_stages (seg :: rest)) cmd with next := nx } : command_t).arg_count
            = (stage_of seg cmd).arg_count ∧
          ({ stage_of (join_stages (seg :: rest)) cmd with next := nx } : command_t).redirects
            = (stage_of seg cmd).redirects := by
      intro nx
      rw [stage_of_eq, stage_of_eq, join_stages_head seg rest hne,
        join_stages_body seg rest hne hbar, stage_body_single seg hbar]
      exact ⟨rfl, rfl, rfl, rfl⟩
    cases rest with
    | nil =>
      have hr : interp fresh d (join_stages [seg]) cmd
          = { stage_of (join_stages [seg]) cmd with next := none } := by
        rw [interp_eq, next_of]
        have : (join_stages [seg]).tail.dropWhile (fun t => t != bar) = [] := by
          apply dropWhile_all_ne_bar
          intro w hw h
          exact hbar (h ▸ List.mem_of_mem_tail hw)
        rw [this, hcmd]
      rw [hr, chain_of_none _ rfl]
      refine ⟨rfl, ?_⟩
      intro i hi
      have hi0 : i = 0 := by simpa using hi
      subst hi0
      exact ⟨_, rfl, hhead none⟩
    | cons s2 r =>
      have hr : interp fresh d (join_stages (seg :: s2 :: r)) cmd
          = { stage_of (join_stages (seg :: s2 :: r)) cmd with
              next := some (interp fresh (d + 1) (join_stages (s2 :: r)) (fresh d)) } := by
        rw [interp_eq, next_of, join_stages_rest seg s2 r hne hbar]
      obtain ⟨ihlen, ihi⟩ := ih (d + 1) (fresh d) (by simp)
        (fun s hs => hseg s (List.mem_cons_of_mem _ hs)) (hfresh d)
      rw [hr, chain_of_some _ (interp fresh (d + 1) (join_stages (s2 :: r)) (fresh d)) rfl]
      refine ⟨by simp [ihlen], ?_⟩
      intro i hi
      cases i with
      | zero => exact ⟨_, List.getElem?_cons_zero, hhead _⟩
      | succ j =>
        obtain ⟨cj, h1, h2⟩ := ihi j (by simpa using hi)
        refine ⟨cj, by simpa using h1, ?_⟩
        have hblock : stage_block (fun k => fresh (d + 1 + k)) (fresh d) j =
            stage_block (fun k => fresh (d + k)) cmd (j + 1) := by
          cases j with
          | zero => rfl
          | succ k =>
            show fresh (d + 1 + k) = fresh (d + (k + 1))
            congr 1
            omega
        rw [hblock] at h2
        simpa using h2

theorem join_stages_last (segs : List (List Str)) (hne : segs ≠ [])
    (hseg : ∀ s ∈ segs, s ≠ [] ∧ bar ∉ s) :
    (join_stages segs).tail.getLast? ≠ some bar := by
  have key : ∀ (l : List (List Str)), l ≠ [] → (∀ s ∈ l, s ≠ [] ∧ bar ∉ s) →
      (join_stages l).getLast? ≠ some bar ∧ join_stages l ≠ [] := by
    intro l
    induction l with
    | nil => intro h; exact absurd rfl h
    | cons seg rest ih =>
      intro _ hs
      obtain ⟨hne1, hbar⟩ := hs seg (List.mem_cons_self _ _)
      cases rest with
      | nil =>
        refine ⟨?_, hne1⟩
        intro h
        exact hbar (List.mem_of_getLast?_eq_some h)
      | cons s2 r =>
        obtain ⟨h1, h2⟩ := ih (by simp) (fun s hs1 => hs s (List.mem_cons_of_mem _ hs1))
        rw [join_stages_cons_cons]
        refine ⟨?_, by simp⟩
        obtain ⟨b, bs, hb⟩ := List.exists_cons_of_ne_nil h2
        rw [List.getLast?_append, hb, List.getLast?_cons_cons, ← hb]
        cases hl : (join_stages (s2 :: r)).getLast? with
        | none => exact absurd (List.getLast?_eq_none_iff.mp hl) h2
        | some x =>
          rw [hl] at h1
          simpa using h1
  obtain ⟨h1, h2⟩ := key segs hne hseg
  obtain ⟨a, as, has⟩ := List.exists_cons_of_ne_nil h2
  rw [has] at h1 ⊢
  exact getLast?_tail_ne h1

/-- When the head and every block `malloc` hands out hold a NULL `next`, a
line `s1 | s2 | ... | sn` (pipe tokens separated by whitespace, every segment
non-blank and free of pipe tokens) parses to a chain of exactly `n` stages in
source order, and stage `i` has the name, `args`, `arg_count` and redirect
slots that parsing `si` alone into the same block gives: no token behind a
pipe token is consumed by the stage before it. -/
theorem pipeline_chain_null_next (fresh : Nat → command_t) (buf : Mem) (cmd : command_t)
    (segs : List (List Str))
    (hfresh : ∀ d, (fresh d).next = none) (hcmd : cmd.next = none)
    (hne : segs ≠ []) (hseg : ∀ s ∈ segs, s ≠ [] ∧ bar ∉ s)
    (htok : tokens (cstr buf) = join_stages segs) :
    ∃ r, parse_line fresh buf cmd = some r ∧
      (chain r).length = segs.length ∧
      ∀ (i : Nat) (hi : i < segs.length) (bi : Mem), tokens (cstr bi) = segs[i] →
        ∃ ci ri, (chain r)[i]? = some ci ∧
          parse_line fresh bi (stage_block fresh cmd i) = some ri ∧
          ci.name = ri.name ∧ ci.args = ri.args ∧ ci.arg_count = ri.arg_count ∧
          ci.redirects = ri.redirects := by
  refine ⟨_, parse_line_interp fresh buf cmd
    (by rw [htok]; exact join_stages_last segs hne hseg), ?_⟩
  rw [htok]
  obtain ⟨hlen, hst⟩ := interp_chain fresh hfresh segs 0 cmd hne hseg hcmd
  refine ⟨hlen, ?_⟩
  intro i hi bi hbi
  obtain ⟨ci, h1, h2, h3, h4, h5⟩ := hst i hi
  obtain ⟨nx, hri⟩ := parse_line_head fresh bi (stage_block fresh cmd i)
  have hfun : (fun k => fresh (0 + k)) = fresh := by
    funext k
    rw [Nat.zero_add]
  rw [hfun] at h2 h3 h4 h5
  refine ⟨ci, _, h1, hri, ?_⟩
  rw [hbi]
  exact ⟨h2, h3, h4, h5⟩

/-- The chain of `cmd1 | cmd2 | cmd3` parsed into zeroed blocks. -/
theorem pipeline_chain_null_next_at_three :
    ∃ r, parse_line (fun _ => zeroed) "cmd1 | cmd2 | cmd3".toList zeroed = some r ∧
      (chain r).length = 3 ∧
      ∀ (i : Nat) (hi : i < 3) (bi : Mem),
        tokens (cstr bi) = ["cmd1".toList :: [], "cmd2".toList :: [], "cmd3".toList :: []][i] →
        ∃ ci ri, (chain r)[i]? = some ci ∧
          parse_line (fun _ => zeroed) bi (stage_block (fun _ => zeroed) zeroed i) = some ri ∧
          ci.name = ri.name ∧ ci.args = ri.args ∧ ci.arg_count = ri.arg_count ∧
          ci.redirects = ri.redirects :=
  pipeline_chain_null_next (fun _ => zeroed) "cmd1 | cmd2 | cmd3".toList zeroed
    ["cmd1".toList :: [], "cmd2".toList :: [], "cmd3".toList :: []]
    (fun _ => rfl) rfl (by decide) (by decide) (by decide)

/-- C3. At `a | b`, a line of two segments, parsed from a zeroed head into a
block from `malloc` whose `next` field holds a non-NULL value, the chain has
three stages, not two: `a`, `b`, and whatever the value left in the block
points to. For every content of the block the second stage keeps the `next`
the block came with: `parse_command` writes `next` only in the pipe branch,
and the nested block is not cleared as the head is in `main`. -/
theorem C3_uninitialised_next :
    tokens (cstr "a | b".toList) = join_stages [["a".toList], ["b".toList]] ∧
    (∃ r, parse_line (fun _ => {zeroed with next := some zeroed}) "a | b".toList zeroed =
        some r ∧
      (chain r).length = 3 ∧
      (chain r).map command_t.name = ["a".toList, "b".toList, []]) ∧
    ∀ fresh : Nat → command_t, ∃ r n, parse_line fresh "a | b".toList zeroed = some r ∧
      r.name = "a".toList ∧ r.next = some n ∧ n.name = "b".toList ∧ n.next = (fresh 0).next :=
  ⟨by decide, ⟨_, rfl, rfl, rfl⟩, fun _ => ⟨_, _, rfl, rfl, rfl, rfl, rfl⟩⟩

/-! ## Redirect tokens -/

theorem tokens_blank (s : Str) (h : ∀ c ∈ s, isSplitter c = true) : tokens s = [] := by
  rw [← tokens_dropWhile, List.dropWhile_eq_nil_iff.mpr h]
  rfl

/-- C9. A line of spaces and tabs only (the empty line included) parses to a
stage with the empty name, `args = ["", NULL]` and `arg_count = 2`, and
`process_command` returns SUCCESS on it without making any call: nothing is
resolved, forked or executed. -/
theorem C9_blank_line (fresh : Nat → command_t) (os : os_t) (buf : Mem) (cmd : command_t)
    (hblank : ∀ c ∈ cstr buf, isSplitter c = true) :
    ∃ r, parse_line fresh buf cmd = some r ∧
      r.name = [] ∧ r.args = [some [], none] ∧ r.arg_count = 2 ∧
      process_command os r = ([], ending.returned return_codes.SUCCESS) := by
  obtain ⟨nx, h⟩ := parse_line_head fresh buf cmd
  refine ⟨_, h, ?_⟩
  rw [tokens_blank _ hblank, stage_of_eq]
  refine ⟨rfl, rfl, rfl, ?_⟩
  unfold process_command
  simp

/-- C9 at a line of two spaces and a tab. -/
theorem C9_blank_line_witness :
    ∃ r, parse_line (fun _ => zeroed) [' ', ' ', '\t'] zeroed = some r ∧
      r.name = [] ∧ r.args = [some [], none] ∧ r.arg_count = 2 ∧
      process_command ⟨none, fun _ => false, 0, fun _ _ => false, false, fun _ => false,
        fun _ => false, fun _ => 0⟩ r = ([], ending.returned return_codes.SUCCESS) :=
  C9_blank_line (fun _ => zeroed) _ [' ', ' ', '\t'] zeroed (by decide)

/-! ## Writing a pipeline back and parsing it again -/

theorem stage_tokens_eq (c : command_t) : stage_tokens c = view_tokens (view c) := rfl

/-- C11. At the line `"ls" "-la"` the stage name is stored with its quotes
(`"ls"`, not `ls`), and so is `args[0]`, while the argument `"-la"` is stored
as `-la`. For every line the name is the first token verbatim, and every
positional token behind it is stored unwrapped: the argument loop unwraps,
the copy of the name does not. -/
theorem C11_name_keeps_quotes :
    (∃ r, parse_line (fun _ => zeroed) "\"ls\" \"-la\"".toList zeroed = some r ∧
      r.name = "\"ls\"".toList ∧ r.name ≠ "ls".toList ∧
      r.args = [some "\"ls\"".toList, some "-la".toList, none]) ∧
    ∀ (fresh : Nat → command_t) (buf : Mem) (cmd : command_t),
      ∃ r, parse_line fresh buf cmd = some r ∧
        r.name = (tokens (cstr buf)).head?.getD [] ∧
        r.args = some r.name ::
          ((stage_body (tokens (cstr buf))).filter positional).map
            (fun t => some (unquote t)) ++ [none] := by
  refine ⟨⟨_, rfl, rfl, by decide, rfl⟩, ?_⟩
  intro fresh buf cmd
  obtain ⟨nx, h⟩ := parse_line_head fresh buf cmd
  refine ⟨_, h, ?_⟩
  rw [stage_of_eq]
  exact ⟨rfl, rfl⟩

/-! ## Looking for the program -/

theorem find_executable_independent (os : os_t) (c1 c2 : command_t) :
    (find_executable os c1).1 = (find_executable os c2).1 ∧
      (find_executable os c1).2.map Prod.fst = (find_executable os c2).2.map Prod.fst := by
  unfold find_executable
  cases os.path with
  | none => exact ⟨rfl, rfl⟩
  | some pv =>
    dsimp only
    cases first_path_token pv with
    | none => exact ⟨rfl, rfl⟩
    | some path =>
      dsimp only
      split_ifs <;> exact ⟨rfl, rfl⟩

/-- C12. With `PATH=/usr/bin:/bin` and `/usr/bin/ls` the one executable path,
the search of the specification finds `/usr/bin/ls` for the name `ls`, while
`find_executable` asks `access` about the whole text `/usr/bin:/bin` (the
first space-separated piece of `PATH`) and returns UNKNOWN. For every
environment the calls and the return code of `find_executable` are the same
for any two commands: they do not depend on the name. -/
theorem C12_find_executable_ignores_name :
    (∃ r, parse_line (fun _ => zeroed) "ls".toList zeroed = some r ∧
      spec_path_search "/usr/bin:/bin".toList (fun p => p == "/usr/bin/ls".toList) r.name =
        some "/usr/bin/ls".toList ∧
      (find_executable ⟨some "/usr/bin:/bin".toList, fun p => p == "/usr/bin/ls".toList, 7,
          fun _ _ => true, true, fun _ => true, fun _ => true, fun _ => 0⟩ r).1 =
        [action.getenv_PATH, action.access "/usr/bin:/bin".toList] ∧
      (find_executable ⟨some "/usr/bin:/bin".toList, fun p => p == "/usr/bin/ls".toList, 7,
          fun _ _ => true, true, fun _ => true, fun _ => true, fun _ => 0⟩ r).2.map Prod.fst =
        some return_codes.UNKNOWN) ∧
    ∀ (os : os_t) (c1 c2 : command_t),
      (find_executable os c1).1 = (find_executable os c2).1 ∧
        (find_executable os c1).2.map Prod.fst = (find_executable os c2).2.map Prod.fst :=
  ⟨⟨_, rfl, by decide, by decide, by decide⟩, find_executable_independent⟩

/-! ## Running a stage -/

/-- What `find_executable` returns: a fault, UNKNOWN with the command
untouched, or SUCCESS with `args[0]` replaced. -/
theorem find_executable_cases (os : os_t) (c : command_t) :
    (∃ as, find_executable os c = (as, none)) ∨
    (∃ as, find_executable os c = (as, some (return_codes.UNKNOWN, c))) ∨
    (∃ as p, find_executable os c =
      (as, some (return_codes.SUCCESS, { c with args := c.args.set 0 (some p) }))) := by
  unfold find_executable
  cases os.path with
  | none => exact Or.inl ⟨_, rfl⟩
  | some pv =>
    dsimp only
    cases first_path_token pv with
    | none => exact Or.inl ⟨_, rfl⟩
    | some path =>
      dsimp only
      split_ifs
      · exact Or.inr (Or.inl ⟨_, rfl⟩)
      · exact Or.inr (Or.inr ⟨_, _, rfl⟩)
      · exact Or.inr (Or.inl ⟨_, rfl⟩)

theorem process_command_external (os : os_t) (c : command_t) (h : is_builtin c = false) :
    process_command os c = run_external os c := by
  unfold is_builtin at h
  simp only [Bool.or_eq_false_iff, beq_eq_false_iff_ne, ne_eq, Bool.and_eq_false_imp,
    beq_iff_eq, decide_eq_false_iff_not] at h
  obtain ⟨⟨⟨⟨⟨⟨⟨⟨h1, h2⟩, h3⟩, h4⟩, h5⟩, h6⟩, h7⟩, h8⟩, h9⟩ := h
  unfold process_command run_external
  have h3c : ¬ (c.name = "cd".toList ∧ c.arg_count > 0) := fun hh => h3 hh.1 hh.2
  rw [if_neg h1, if_neg h2, if_neg h3c, if_neg h4, if_neg h5, if_neg h6, if_neg h7, if_neg h8,
    if_neg h9]

theorem no_fork_find_executable (os : os_t) (c : command_t) :
    action.fork ∉ (find_executable os c).1 := by
  unfold find_executable
  cases os.path with
  | none => simp
  | some pv =>
    dsimp only
    cases first_path_token pv with
    | none => simp
    | some path =>
      dsimp only
      split_ifs <;> simp

theorem no_fork_open_redirects (os : os_t) (r : redirects_t) :
    action.fork ∉ (open_redirects os r).1 := by
  obtain ⟨rd, wr, ap⟩ := r
  cases rd <;> cases wr <;> cases ap <;> simp [open_redirects] <;> split_ifs <;> simp

theorem no_fork_dup_redirects (os : os_t) (r : redirects_t) :
    action.fork ∉ (dup_redirects os r).1 := by
  obtain ⟨rd, wr, ap⟩ := r
  cases rd <;> simp [dup_redirects]
  split_ifs <;> simp

theorem count_fork_of_not_mem {l : List action} (h : action.fork ∉ l) :
    l.count action.fork = 0 := List.count_eq_zero.mpr h

/-- A resolved external command is forked once. -/
theorem run_external_forks (os : os_t) (c : command_t)
    (h : (find_executable os c).2.map Prod.fst = some return_codes.SUCCESS) :
    (run_external os c).1.count action.fork = 1 := by
  have h0 := no_fork_find_executable os c
  unfold run_external
  rcases find_executable_cases os c with ⟨as, hfe⟩ | ⟨as, hfe⟩ | ⟨as, p, hfe⟩ <;>
    rw [hfe] at h h0 ⊢
  · simp at h
  · simp at h
  · have h1 := no_fork_open_redirects os c.redirects
    have h2 := no_fork_dup_redirects os c.redirects
    dsimp only at h0 h1 h2 ⊢
    split_ifs <;>
      simp [List.count_append, count_fork_of_not_mem h0, count_fork_of_not_mem h1,
        count_fork_of_not_mem h2, List.count_cons]

theorem find_executable_next (os : os_t) (c : command_t) (nx : Option command_t) :
    find_executable os { c with next := nx } =
      ((find_executable os c).1,
        (find_executable os c).2.map (fun q => (q.1, { q.2 with next := nx }))) := by
  unfold find_executable
  cases os.path with
  | none => rfl
  | some pv =>
    dsimp only
    cases first_path_token pv with
    | none => rfl
    | some path =>
      dsimp only
      split_ifs <;> rfl

/-- The `next` link is never read. -/
theorem process_command_next (os : os_t) (c : command_t) (nx : Option command_t) :
    process_command os { c with next := nx } = process_command os c := by
  unfold process_command
  dsimp only
  rw [find_executable_next]
  rcases find_executable_cases os c with ⟨as, h⟩ | ⟨as, h⟩ | ⟨as, p, h⟩ <;> rw [h] <;> rfl

/-- C14, as stated, fails at `ls | wc`: the chain has two stages, neither
name is a built-in, both resolve, and `process_command` forks once. -/
theorem C14_counterexample :
    ∃ r, parse_line (fun _ => zeroed) "ls | wc".toList zeroed = some r ∧
      (chain r).length = 2 ∧
      (chain r).all (fun c => !is_builtin c &&
        decide ((find_executable ⟨some "/bin".toList, fun _ => true, 7, fun _ _ => true, true,
          fun _ => true, fun _ => true, fun _ => 0⟩ c).2.map Prod.fst =
            some return_codes.SUCCESS)) = true ∧
      (process_command ⟨some "/bin".toList, fun _ => true, 7, fun _ _ => true, true,
        fun _ => true, fun _ => true, fun _ => 0⟩ r).1.count action.fork = 1 :=
  ⟨_, rfl, rfl, by decide, by decide⟩

/-- C14, amended. For a command whose name is not a built-in and resolves,
`process_command` forks exactly one child process, and what it does is the
same whatever the `next` link holds: only the head stage is run. -/
theorem C14_single_fork (os : os_t) (c : command_t) (hb : is_builtin c = false)
    (hr : (find_executable os c).2.map Prod.fst = some return_codes.SUCCESS) :
    (process_command os c).1.count action.fork = 1 ∧
      ∀ nx : Option command_t, process_command os {c with next := nx} = process_command os c := by
  refine ⟨?_, process_command_next os c⟩
  rw [process_command_external os c hb]
  exact run_external_forks os c hr

/-- C14, amended, at `ls | wc`. -/
theorem C14_single_fork_witness :
    ∃ r, parse_line (fun _ => zeroed) "ls | wc".toList zeroed = some r ∧
      is_builtin r = false ∧
      (find_executable ⟨some "/bin".toList, fun _ => true, 7, fun _ _ => true, true,
        fun _ => true, fun _ => true, fun _ => 0⟩ r).2.map Prod.fst =
          some return_codes.SUCCESS ∧
      ((process_command ⟨some "/bin".toList, fun _ => true, 7, fun _ _ => true, true,
        fun _ => true, fun _ => true, fun _ => 0⟩ r).1.count action.fork = 1 ∧
        ∀ nx : Option command_t,
          process_command ⟨some "/bin".toList, fun _ => true, 7, fun _ _ => true, true,
            fun _ => true, fun _ => true, fun _ => 0⟩ {r with next := nx} =
          process_command ⟨some "/bin".toList, fun _ => true, 7, fun _ _ => true, true,
            fun _ => true, fun _ => true, fun _ => 0⟩ r) :=
  ⟨_, rfl, by decide, by decide, C14_single_fork _ _ (by decide) (by decide)⟩

/-! ## Rolling dice -/

/-- With a positive modulus every face is drawn, and lies between `lower` and
`upper`. -/
theorem roll_faces_range (rand : Nat → Nat) (lower upper : Int)
    (h : 0 < roll_modulus lower upper) (n i : Nat) :
    ∃ faces, roll_faces rand lower upper n i = some faces ∧ faces.length = n ∧
      ∀ f ∈ faces, lower ≤ f ∧ f ≤ upper := by
  induction n generalizing i with
  | zero => exact ⟨[], rfl, rfl, by simp⟩
  | succ k ih =>
    obtain ⟨faces, hf, hl, hr⟩ := ih (i + 1)
    refine ⟨((rand i : Int).tmod (roll_modulus lower upper) + lower) :: faces, ?_, ?_, ?_⟩
    · rw [roll_faces, if_neg (ne_of_gt h), hf]
    · simp [hl]
    · intro f hm
      rcases List.mem_cons.mp hm with rfl | hm
      · have h0 : 0 ≤ (rand i : Int).tmod (roll_modulus lower upper) :=
          Int.tmod_nonneg _ (Int.ofNat_nonneg _)
        have h1 : (rand i : Int).tmod (roll_modulus lower upper) < roll_modulus lower upper :=
          Int.tmod_lt_of_pos _ h
        unfold roll_modulus at h0 h1 ⊢
        constructor <;> omega
      · exact hr f hm

/-- C15. `roll` accepts the argument `d0`: it reads one roll with `lower = 1`
and `upper = 0`, the modulus `upper - lower + 1` is zero, and drawing the
face divides by zero, whatever `rand` returns; `process_command` on the line
`roll d0` ends in that fault. -/
theorem C15_roll_d0 :
    roll_args "d0".toList = some (1, 1, 0) ∧ roll_modulus 1 0 = 0 ∧
    (∀ rand : Nat → Nat, roll rand "d0".toList = roll_outcome.division_by_zero) ∧
    ∃ r, parse_line (fun _ => zeroed) "roll d0".toList zeroed = some r ∧
      ∀ os : os_t, process_command os r = ([action.roll (some "d0".toList)], ending.crashed) :=
  ⟨by decide, by decide, fun _ => rfl, _, rfl, fun _ => rfl⟩

end Mishell
